import Mathlib

/-!
Verification of the SQL-dump extraction engine of migration.py
(class SQLFileParser): value normalizer, value tokenizer, schema and
statement extractors, table materializer and dump loader, embedded as
pure functions over lists of characters.
-/

set_option maxHeartbeats 1000000

/-- Single quote character. -/
def sqc : Char := Char.ofNat 39

/-- Double quote character. -/
def dqc : Char := Char.ofNat 34

/-- Backslash character. -/
def bsc : Char := Char.ofNat 92

/-- Backtick character. -/
def btc : Char := Char.ofNat 96

/-- The whitespace predicate used by Python str.strip and by the regex
class backslash-s: space, tab, newline, carriage return, vertical tab,
form feed. -/
def pySpace (c : Char) : Bool :=
  c = ' ' || c = Char.ofNat 9 || c = Char.ofNat 10 || c = Char.ofNat 13 ||
    c = Char.ofNat 11 || c = Char.ofNat 12

/-- Lowercase a character list (models case-insensitive regex matching). -/
def lowerL (l : List Char) : List Char := l.map Char.toLower

/-- Uppercase a character list (models Python str.upper). -/
def upperL (l : List Char) : List Char := l.map Char.toUpper

/-- Models Python str.strip with no arguments. -/
def trimL (l : List Char) : List Char :=
  ((l.dropWhile pySpace).reverse.dropWhile pySpace).reverse

/-- Models Python str.startswith for a single character. -/
def startsWithL (c : Char) : List Char → Bool
  | [] => false
  | x :: _ => x = c

/-- Models Python str.endswith for a single character. -/
def endsWithL (c : Char) (l : List Char) : Bool :=
  match l.getLast? with
  | some x => x = c
  | none => false

/-- Models Python str.isdigit (ASCII digits). -/
def isdigitL (l : List Char) : Bool := !l.isEmpty && l.all Char.isDigit

/-- Models Python str.split on a one-character separator. -/
def splitOnCharL (sep : Char) : List Char → List (List Char)
  | [] => [[]]
  | c :: rest =>
    if c = sep then [] :: splitOnCharL sep rest
    else
      match splitOnCharL sep rest with
      | [] => [[c]]
      | p :: ps => (c :: p) :: ps

/-- Models Python str.replace for a two-character pattern:
left-to-right, non-overlapping, not rescanning the replacement text.
Every replace call of the source uses a two-character pattern. -/
def replacePair (a b : Char) (rep : List Char) : List Char → List Char
  | [] => []
  | [c] => [c]
  | c :: d :: rest =>
    if c = a ∧ d = b then rep ++ replacePair a b rep rest
    else c :: replacePair a b rep (d :: rest)

/-- A parsed SQL value: either the null value or a piece of text.  The
engine never coerces to numbers. -/
inductive Value where
  | null : Value
  | text : String → Value
deriving DecidableEq, Repr

/-- One reconstructed row: a column-name-to-value mapping in column
order. -/
abbrev Record := List (String × Value)

namespace SQLFileParser

/-- Embedding of SQLFileParser.clean_value (migration.py lines 219-233):
strip, compare against NULL case-insensitively, strip a bounding quote
pair and resolve backslash escapes, otherwise return the token verbatim
(the digit branch of the source returns the value unchanged, like the
default branch). -/
def clean_value (value : List Char) : Value :=
  let v := trimL value
  if upperL v = "NULL".data then Value.null
  else if startsWithL sqc v && endsWithL sqc v then
    Value.text (String.mk (replacePair bsc bsc [bsc] (replacePair bsc sqc [sqc] ((v.drop 1).dropLast))))
  else if startsWithL dqc v && endsWithL dqc v then
    Value.text (String.mk (replacePair bsc bsc [bsc] (replacePair bsc dqc [dqc] ((v.drop 1).dropLast))))
  else if isdigitL v then Value.text (String.mk v)
  else Value.text (String.mk v)

/-- The scanner state of SQLFileParser.parse_values_string: completed
rows, the row being built, the token accumulator, the quote flag and the
pending quote character. -/
structure PState where
  rows : List (List Value)
  row : List Value
  cur : List Char
  inQ : Bool
  qc : Option Char
deriving Repr

/-- The character loop of SQLFileParser.parse_values_string
(migration.py lines 178-209), one character per step.  The skip flag
models the inner skip-to-next-opening-parenthesis loop of lines
197-200, which advances character by character after a close
parenthesis; prev is the character preceding the current one in the raw
input, used by the escape check on a closing quote. -/
def go (skip : Bool) (prev : Option Char) (l : List Char) (st : PState) :
    List (List Value) :=
  match l with
  | [] =>
    let row := if trimL st.cur = [] then st.row else st.row ++ [clean_value (trimL st.cur)]
    if row = [] then st.rows else st.rows ++ [row]
  | c :: rest =>
    if skip then
      if c = '(' then go false (some '(') rest st
      else go true prev rest st
    else if st.inQ then
      if st.qc = some c ∧ (prev = none ∨ prev ≠ some bsc) then
        go false (some c) rest { st with cur := st.cur ++ [c], inQ := false, qc := none }
      else
        go false (some c) rest { st with cur := st.cur ++ [c] }
    else if c = sqc ∨ c = dqc then
      go false (some c) rest { st with cur := st.cur ++ [c], inQ := true, qc := some c }
    else if c = ',' then
      go false (some c) rest { st with row := st.row ++ [clean_value (trimL st.cur)], cur := [] }
    else if c = ')' then
      let row := if trimL st.cur = [] then st.row else st.row ++ [clean_value (trimL st.cur)]
      let rows := if row = [] then st.rows else st.rows ++ [row]
      go true (some ')') rest
        { rows := rows, row := [], cur := [], inQ := false, qc := st.qc }
    else
      go false (some c) rest { st with cur := st.cur ++ [c] }

/-- Embedding of SQLFileParser.parse_values_string (migration.py lines
168-217): scan the tuple-list text with empty initial state. -/
def parse_values_string (s : List Char) : List (List Value) :=
  go false none s ⟨[], [], [], false, none⟩

end SQLFileParser

/-- Case-insensitive literal matching, as the IGNORECASE regex flag
compares characters. -/
def prefixCI (pat s : List Char) : Bool := (lowerL pat).isPrefixOf (lowerL s)

/-- Split at the first semicolon: the lazy group of the statement regex
captures up to the first semicolon, with everything after it left for
the next scan. -/
def splitSemi : List Char → Option (List Char × List Char)
  | [] => none
  | c :: rest =>
    if c = ';' then some ([], rest)
    else (splitSemi rest).map (fun p => (c :: p.1, p.2))

/-- After the literal INSERT prefix has matched, the lazy dot-star of
the statement regex advances to the first case-insensitive VALUES whose
suffix still holds a semicolon; the greedy whitespace-star then eats the
maximal whitespace run and the lazy group captures up to the first
semicolon.  If no semicolon follows the first VALUES, no later VALUES
can be followed by one either, so the whole position fails. -/
def matchTail : List Char → Option (List Char × List Char)
  | [] => none
  | c :: rest =>
    if prefixCI "VALUES".data (c :: rest) then
      splitSemi (List.dropWhile pySpace (List.drop 6 (c :: rest)))
    else matchTail rest

/-- The fuelled scan of re.findall over the statement pattern of
SQLFileParser.extract_table_data (migration.py line 121): scan left to
right for the literal case-insensitive prefix, complete the match with
matchTail, and continue after the consumed semicolon; on failure move
one character forward.  Each step consumes at least one character, so
any fuel at least the input length is enough. -/
def scanInsertF (pat : List Char) : Nat → List Char → List (List Char)
  | _, [] => []
  | 0, _ :: _ => []
  | Nat.succ n, c :: rest =>
    if prefixCI pat (c :: rest) then
      (matchTail (List.drop pat.length (c :: rest))).elim
        (scanInsertF pat n rest)
        (fun p => p.1 :: scanInsertF pat n p.2)
    else scanInsertF pat n rest

/-- Model of re.findall over the statement pattern, run with enough
fuel. -/
def scanInsert (pat content : List Char) : List (List Char) :=
  scanInsertF pat content.length content

/-- The lazy group of the schema pattern: capture up to the first close
parenthesis that is followed, after whitespace, by case-insensitive
ENGINE; a close parenthesis failing that test is captured and the scan
goes on. -/
def scanBody : List Char → Option (List Char)
  | [] => none
  | c :: rest =>
    if c = ')' && prefixCI "ENGINE".data (List.dropWhile pySpace rest) then
      some []
    else (scanBody rest).map (c :: ·)

/-- After the literal CREATE prefix has matched: the greedy
whitespace-star must end at an opening parenthesis, then the body is
captured by scanBody. -/
def createTail (s : List Char) : Option (List Char) :=
  match List.dropWhile pySpace s with
  | [] => none
  | c :: body => if c = '(' then scanBody body else none

/-- Model of re.search over the schema pattern of
SQLFileParser.extract_table_data (migration.py line 128): first position
where the whole pattern matches. -/
def searchCreate (pat : List Char) : List Char → Option (List Char)
  | [] => none
  | c :: rest =>
    if prefixCI pat (c :: rest) then
      (createTail (List.drop pat.length (c :: rest))).elim
        (searchCreate pat rest) some
    else searchCreate pat rest

/-- The literal part of the statement pattern for a table name. -/
def insertPat (t : List Char) : List Char :=
  "INSERT INTO ".data ++ btc :: (t ++ [btc])

/-- The literal part of the schema pattern for a table name. -/
def createPat (t : List Char) : List Char :=
  "CREATE TABLE ".data ++ btc :: (t ++ [btc])

namespace SQLFileParser

/-- All captures of the statement pattern, in file order (migration.py
lines 121-122). -/
def findInsertMatches (content t : List Char) : List (List Char) :=
  scanInsert (insertPat t) content

/-- The capture of the schema pattern, when the dump holds a matching
CREATE TABLE block (migration.py lines 128-129). -/
def extract_create_body (content t : List Char) : Option (List Char) :=
  searchCreate (createPat t) content

/-- Column extraction of SQLFileParser.extract_table_data (migration.py
lines 131-139): walk the body lines, keep lines that, once stripped,
start with a backtick and not with PRIMARY or KEY, and take the text
between the first backtick pair. -/
def extractColumns (content t : List Char) : List (List Char) :=
  match extract_create_body content t with
  | none => []
  | some body =>
    (splitOnCharL (Char.ofNat 10) body).foldl
      (fun cols line =>
        let l := trimL line
        if startsWithL btc l && !(List.isPrefixOf "PRIMARY".data l)
            && !(List.isPrefixOf "KEY".data l)
        then cols ++ [(splitOnCharL btc l).getD 1 []]
        else cols) []

/-- Outer parenthesis stripping of SQLFileParser.extract_table_data
(migration.py lines 147-150). -/
def stripParens (vt : List Char) : List Char :=
  let v1 := if startsWithL '(' vt then vt.drop 1 else vt
  if endsWithL ')' v1 then v1.dropLast else v1

/-- Embedding of SQLFileParser.extract_table_data (migration.py lines
116-166): find the statement captures, return empty when there are
none, otherwise extract the columns and accumulate, across captures and
rows, every row whose arity equals the column count, zipped with the
column names. -/
def extract_table_data (content t : List Char) : List Record :=
  let ms := findInsertMatches content t
  if ms = [] then []
  else
    let columns := extractColumns content t
    ms.foldl
      (fun all m =>
        (parse_values_string (stripParens (trimL m))).foldl
          (fun acc row =>
            if row.length = columns.length
            then acc ++ [(columns.map String.mk).zip row]
            else acc)
          all)
      []

/-- Embedding of SQLFileParser.parse_sql_file (migration.py lines
91-114).  The filesystem is a function from paths to file reads; a
failed read is the only error and is wrapped with the prefix the source
attaches; a successful read builds the five fixed datasets. -/
def parse_sql_file (fs : String → Except String String) (path : String) :
    Except String (List (String × List Record)) :=
  match fs path with
  | Except.error e => Except.error ("Failed to parse SQL file: " ++ e)
  | Except.ok content =>
    Except.ok
      [("users", extract_table_data content.data "is_user".data),
       ("admins", extract_table_data content.data "is_admin".data),
       ("accounts", extract_table_data content.data "is_account".data),
       ("tickets", extract_table_data content.data "is_ticket".data),
       ("ssl", extract_table_data content.data "is_ssl".data)]

end SQLFileParser

/-- The Value Normalizer exactly as the specification words it: a token
equal to NULL under case-insensitive comparison is the null value; a
token bounded by a single-quote pair is the text between the quotes with
backslash-quote resolved first and backslash-backslash second; a token
bounded by a double-quote pair is treated analogously; any other token,
bare numeric literals included, is returned verbatim as text. -/
def cleanValueSpec (v : List Char) : Value :=
  if upperL v = "NULL".data then Value.null
  else if startsWithL sqc v && endsWithL sqc v then
    Value.text (String.mk (replacePair bsc bsc [bsc] (replacePair bsc sqc [sqc] ((v.drop 1).dropLast))))
  else if startsWithL dqc v && endsWithL dqc v then
    Value.text (String.mk (replacePair bsc bsc [bsc] (replacePair bsc dqc [dqc] ((v.drop 1).dropLast))))
  else Value.text (String.mk v)

/-!
Synthetic dump used for the round-trip claim: a table named t with M
columns named c, cx, cxx, ... and N rows whose value at row i and column
j is the bare token v a...a w a...a with i and j letters a.  The column
type text and the end marker ENGINE=X keep the letter i out of
everything before the INSERT statement except the ENGINE keyword itself.
-/

/-- Synthetic column name for column j. -/
def colName (j : Nat) : List Char := 'c' :: List.replicate j 'x'

/-- Synthetic bare value token for row i, column j. -/
def valTok (i j : Nat) : List Char :=
  'v' :: (List.replicate i 'a' ++ 'w' :: List.replicate j 'a')

/-- One column-declaration line of the synthetic CREATE TABLE body. -/
def colLine (j : Nat) : List Char :=
  (' ' :: ' ' :: btc :: (colName j ++ btc :: " text".data)) ++ [',']

/-- Comma-separated join of value tokens inside one tuple. -/
def joinCommaSep : List (List Char) → List Char
  | [] => []
  | [x] => x
  | x :: y :: xs => x ++ ',' :: joinCommaSep (y :: xs)

/-- The bodies of consecutive tuples, separated by the close-comma-open
boundary. -/
def rowsTextSep : List (List (List Char)) → List Char
  | [] => []
  | [r] => joinCommaSep r
  | r :: s :: rs => joinCommaSep r ++ ')' :: ',' :: '(' :: rowsTextSep (s :: rs)

/-- The value tokens of synthetic row i over M columns. -/
def rowToks (i M : Nat) : List (List Char) := (List.range M).map (valTok i)

/-- The full tuple list of the synthetic INSERT statement. -/
def tuplesText (N M : Nat) : List Char :=
  '(' :: (rowsTextSep ((List.range N).map (fun i => rowToks i M)) ++ [')'])

/-- The captured body of the synthetic CREATE TABLE block. -/
def createBodyD (M : Nat) : List Char :=
  ((List.range M).map (fun j => Char.ofNat 10 :: colLine j)).flatten ++ [Char.ofNat 10]

/-- The CREATE TABLE part of the synthetic dump. -/
def createPartD (M : Nat) : List Char :=
  createPat "t".data ++ " (".data ++ createBodyD M ++ ')' :: " ENGINE=X;\n".data

/-- The INSERT part of the synthetic dump; with zero rows there is no
INSERT statement at all. -/
def insertPartD (N M : Nat) : List Char :=
  if N = 0 then []
  else insertPat "t".data ++ " VALUES ".data ++ tuplesText N M ++ [';']

/-- The synthetic dump for N rows and M columns. -/
def mkDump (N M : Nat) : List Char := createPartD M ++ insertPartD N M

/-- The Record the round trip is expected to produce for row i. -/
def expectedRecord (i M : Nat) : Record :=
  (List.range M).map (fun j => (String.mk (colName j), Value.text (String.mk (valTok i j))))

/-- The single-row tuple list of the first testable property: open
parenthesis, NULL, a single-quoted value holding a comma, a
single-quoted value holding a doubled single quote, close
parenthesis. -/
def c1Tuple : List Char :=
  "(NULL, ".data ++ sqc :: "a,b".data ++ sqc :: ", ".data ++
    sqc :: "it".data ++ sqc :: sqc :: "s".data ++ [sqc, ')']

/-- A dump holding a three-column schema and one INSERT carrying
c1Tuple. -/
def c1Dump : List Char :=
  "CREATE TABLE `t` (\n `col1` int,\n `col2` int,\n `col3` int\n) ENGINE=X;\nINSERT INTO `t` VALUES ".data
    ++ c1Tuple ++ [';']

namespace SQLFileParser

/-- claim C3 support: the clean_value branch test is unchanged by the
specification reading once the input is already stripped. -/
theorem clean_value_eq_spec (v : List Char) (h : trimL v = v) :
    clean_value v = cleanValueSpec v := by
  simp only [clean_value, cleanValueSpec, h]
  split_ifs <;> rfl

end SQLFileParser

/-- C3: for every raw literal token (already trimmed by the tokenizer),
the Value Normalizer applies the spec rules in order: NULL
case-insensitively gives null; a single-quote-bounded token gives the
inner text with backslash-quote resolved before backslash-backslash; a
double-quote-bounded token analogously; every other token, bare numeric
literals included, is returned verbatim as text, with no numeric
coercion. -/
theorem claim3 (v : List Char) (h : trimL v = v) :
    SQLFileParser.clean_value v = cleanValueSpec v :=
  SQLFileParser.clean_value_eq_spec v h

/-- Witness for claim3 at the concrete tokens NULL and 12. -/
theorem claim3_witness :
    (trimL "NULL".data = "NULL".data ∧
      SQLFileParser.clean_value "NULL".data = cleanValueSpec "NULL".data) ∧
    (trimL "12".data = "12".data ∧
      SQLFileParser.clean_value "12".data = cleanValueSpec "12".data) :=
  ⟨⟨by decide, claim3 "NULL".data (by decide)⟩,
   ⟨by decide, claim3 "12".data (by decide)⟩⟩

/-- C4: while the quote flag is set, a scanned character is appended
literally to the token, the row and rows accumulators are untouched,
and the quoted state ends exactly when the character equals the pending
quote character and the preceding input character is not a
backslash. -/
theorem claim4 (prev : Option Char) (c : Char) (rest : List Char)
    (st : SQLFileParser.PState) (h : st.inQ = true) :
    SQLFileParser.go false prev (c :: rest) st =
      if st.qc = some c ∧ (prev = none ∨ prev ≠ some bsc) then
        SQLFileParser.go false (some c) rest
          { st with cur := st.cur ++ [c], inQ := false, qc := none }
      else
        SQLFileParser.go false (some c) rest { st with cur := st.cur ++ [c] } := by
  rw [SQLFileParser.go.eq_def]
  simp only [h, Bool.false_eq_true, if_false, if_true]

/-- Witness for claim4 inside a single-quoted token. -/
theorem claim4_witness :
    (({ rows := [], row := [], cur := [sqc], inQ := true,
        qc := some sqc } : SQLFileParser.PState).inQ = true) ∧
    SQLFileParser.go false (some sqc) (',' :: [])
      { rows := [], row := [], cur := [sqc], inQ := true, qc := some sqc } =
      (if ({ rows := [], row := [], cur := [sqc], inQ := true,
              qc := some sqc } : SQLFileParser.PState).qc = some ',' ∧
            (some sqc = none ∨ some sqc ≠ some bsc) then
        SQLFileParser.go false (some ',') []
          { rows := [], row := [], cur := [sqc] ++ [','], inQ := false, qc := none }
      else
        SQLFileParser.go false (some ',') []
          { rows := [], row := [], cur := [sqc] ++ [','], inQ := true,
            qc := some sqc }) :=
  ⟨rfl, claim4 (some sqc) ',' [] _ rfl⟩

/-- C6: an extraction call fails exactly when the underlying file read
fails, the error carrying the underlying cause behind the fixed prefix;
for every successfully read content, whatever it holds, the call
returns a result and never an error. -/
theorem claim6 (fs : String → Except String String) (path : String) :
    ((∃ msg, SQLFileParser.parse_sql_file fs path = Except.error msg) ↔
      (∃ e, fs path = Except.error e)) ∧
    (∀ e, fs path = Except.error e →
      SQLFileParser.parse_sql_file fs path =
        Except.error ("Failed to parse SQL file: " ++ e)) ∧
    (∀ content, fs path = Except.ok content →
      ∃ r, SQLFileParser.parse_sql_file fs path = Except.ok r) := by
  cases h : fs path <;>
    simp [SQLFileParser.parse_sql_file, h]

/-- Witness for claim6 on a one-file store and on a failing store. -/
theorem claim6_witness :
    SQLFileParser.parse_sql_file (fun _ => Except.error "gone") "dump.sql" =
      Except.error ("Failed to parse SQL file: " ++ "gone") ∧
    ∃ r, SQLFileParser.parse_sql_file (fun _ => Except.ok "") "dump.sql" =
      Except.ok r :=
  ⟨(claim6 (fun _ => Except.error "gone") "dump.sql").2.1 "gone" rfl,
   (claim6 (fun _ => Except.ok "") "dump.sql").2.2 "" rfl⟩

/-- C7: on a successful read the result maps exactly the five requested
table names, one entry each, users through ssl backing the tables
is_user through is_ssl; a requested table with no matching INSERT
statement still gets its entry, holding the empty dataset, and the call
returns without error. -/
theorem claim7 (fs : String → Except String String) (path content : String)
    (h : fs path = Except.ok content) :
    SQLFileParser.parse_sql_file fs path =
      Except.ok
        [("users", SQLFileParser.extract_table_data content.data "is_user".data),
         ("admins", SQLFileParser.extract_table_data content.data "is_admin".data),
         ("accounts", SQLFileParser.extract_table_data content.data "is_account".data),
         ("tickets", SQLFileParser.extract_table_data content.data "is_ticket".data),
         ("ssl", SQLFileParser.extract_table_data content.data "is_ssl".data)] ∧
    ([("users", SQLFileParser.extract_table_data content.data "is_user".data),
      ("admins", SQLFileParser.extract_table_data content.data "is_admin".data),
      ("accounts", SQLFileParser.extract_table_data content.data "is_account".data),
      ("tickets", SQLFileParser.extract_table_data content.data "is_ticket".data),
      ("ssl", SQLFileParser.extract_table_data content.data "is_ssl".data)].map
        Prod.fst = ["users", "admins", "accounts", "tickets", "ssl"]) ∧
    (∀ tbl, SQLFileParser.findInsertMatches content.data tbl = [] →
      SQLFileParser.extract_table_data content.data tbl = []) := by
  refine ⟨?_, by simp, ?_⟩
  · simp [SQLFileParser.parse_sql_file, h]
  · intro tbl h0
    simp [SQLFileParser.extract_table_data, h0]

/-- splitSemi yields a capture free of semicolons. -/
theorem splitSemi_no_semi :
    ∀ (s : List Char) (q : List Char × List Char),
      splitSemi s = some q → ';' ∉ q.1 := by
  intro s
  induction s with
  | nil => intro q h; simp [splitSemi] at h
  | cons c rest ih =>
    intro q h
    simp only [splitSemi] at h
    by_cases hc : c = ';'
    · rw [if_pos hc] at h
      cases h
      simp
    · rw [if_neg hc] at h
      cases hmap : splitSemi rest with
      | none => rw [hmap] at h; simp at h
      | some q0 =>
        rw [hmap] at h
        simp only [Option.map_some'] at h
        cases h
        intro hmem
        rcases List.mem_cons.mp hmem with h1 | h1
        · exact hc h1.symm
        · exact ih q0 hmap h1

/-- splitSemi consumes at least the semicolon. -/
theorem splitSemi_length :
    ∀ (s : List Char) (q : List Char × List Char),
      splitSemi s = some q → q.2.length < s.length := by
  intro s
  induction s with
  | nil => intro q h; simp [splitSemi] at h
  | cons c rest ih =>
    intro q h
    simp only [splitSemi] at h
    by_cases hc : c = ';'
    · rw [if_pos hc] at h
      cases h
      show rest.length < (c :: rest).length
      simp only [List.length_cons]
      omega
    · rw [if_neg hc] at h
      cases hmap : splitSemi rest with
      | none => rw [hmap] at h; simp at h
      | some q0 =>
        rw [hmap] at h
        simp only [Option.map_some'] at h
        cases h
        show q0.2.length < (c :: rest).length
        have := ih q0 hmap
        simp only [List.length_cons]
        omega

/-- matchTail yields a capture free of semicolons. -/
theorem matchTail_no_semi :
    ∀ (s : List Char) (q : List Char × List Char),
      matchTail s = some q → ';' ∉ q.1 := by
  intro s
  induction s with
  | nil => intro q h; simp [matchTail] at h
  | cons c rest ih =>
    intro q h
    simp only [matchTail] at h
    split at h
    · exact splitSemi_no_semi _ q h
    · exact ih q h

/-- matchTail leaves a strictly shorter remainder. -/
theorem matchTail_length :
    ∀ (s : List Char) (q : List Char × List Char),
      matchTail s = some q → q.2.length < s.length := by
  intro s
  induction s with
  | nil => intro q h; simp [matchTail] at h
  | cons c rest ih =>
    intro q h
    simp only [matchTail] at h
    split at h
    · have h1 := splitSemi_length _ q h
      have h2 := (List.dropWhile_sublist
        (l := List.drop 6 (c :: rest)) (p := pySpace)).length_le
      simp only [List.length_drop, List.length_cons] at h1 h2 ⊢
      omega
    · have hih := ih q h
      simp only [List.length_cons] at hih ⊢
      omega

/-- Any fuel at least the input length runs the statement scan to the
same result. -/
theorem scanInsertF_fuel (pat : List Char) :
    ∀ (n m : Nat) (content : List Char), content.length ≤ n →
      content.length ≤ m → scanInsertF pat n content = scanInsertF pat m content := by
  intro n
  induction n with
  | zero =>
    intro m content h1 _
    have hc : content = [] := List.length_eq_zero.mp (Nat.le_zero.mp h1)
    subst hc
    cases m <;> rfl
  | succ n ih =>
    intro m content h1 h2
    cases content with
    | nil => cases m <;> rfl
    | cons c rest =>
      cases m with
      | zero => simp at h2
      | succ m2 =>
        simp only [List.length_cons] at h1 h2
        simp only [scanInsertF]
        split
        · cases hmt : matchTail (List.drop pat.length (c :: rest)) with
          | none =>
            simp only [Option.elim_none]
            exact ih m2 rest (by omega) (by omega)
          | some p =>
            have hp := matchTail_length _ p hmt
            simp only [List.length_drop, List.length_cons] at hp
            simp only [Option.elim_some]
            rw [ih m2 p.2 (by omega) (by omega)]
        · exact ih m2 rest (by omega) (by omega)

/-- Scanning the empty dump yields nothing. -/
theorem scanInsert_nil (pat : List Char) : scanInsert pat [] = [] := rfl

/-- One scanner step past a position where the literal prefix does not
match. -/
theorem scanInsert_cons_neg (pat : List Char) (c : Char) (rest : List Char)
    (h : prefixCI pat (c :: rest) = false) :
    scanInsert pat (c :: rest) = scanInsert pat rest := by
  show scanInsertF pat (rest.length + 1) (c :: rest) = scanInsertF pat rest.length rest
  simp only [scanInsertF, h, Bool.false_eq_true, if_false]

/-- One scanner step at a successful match: emit the capture and resume
after the consumed semicolon. -/
theorem scanInsert_cons_some (pat : List Char) (c : Char) (rest : List Char)
    (p : List Char × List Char)
    (h : prefixCI pat (c :: rest) = true)
    (hmt : matchTail (List.drop pat.length (c :: rest)) = some p) :
    scanInsert pat (c :: rest) = p.1 :: scanInsert pat p.2 := by
  have hp := matchTail_length _ p hmt
  simp only [List.length_drop, List.length_cons] at hp
  show scanInsertF pat (rest.length + 1) (c :: rest) = _
  simp only [scanInsertF, h, if_true]
  rw [hmt]
  simp only [Option.elim_some]
  rw [scanInsertF_fuel pat rest.length p.2.length p.2 (by omega) (Nat.le_refl _)]
  rfl

/-- One scanner step where the prefix matches but no completed
statement follows: move one character forward. -/
theorem scanInsert_cons_none (pat : List Char) (c : Char) (rest : List Char)
    (h : prefixCI pat (c :: rest) = true)
    (hmt : matchTail (List.drop pat.length (c :: rest)) = none) :
    scanInsert pat (c :: rest) = scanInsert pat rest := by
  show scanInsertF pat (rest.length + 1) (c :: rest) = scanInsertF pat rest.length rest
  simp only [scanInsertF, h, if_true]
  rw [hmt]
  simp only [Option.elim_none]

/-- Every capture produced by the statement scanner is semicolon
free. -/
theorem scanInsert_no_semi (pat : List Char) :
    ∀ (content m : List Char), m ∈ scanInsert pat content → ';' ∉ m := by
  have key : ∀ (n : Nat) (content m : List Char),
      m ∈ scanInsertF pat n content → ';' ∉ m := by
    intro n
    induction n with
    | zero =>
      intro content m hm
      cases content <;> simp [scanInsertF] at hm
    | succ n ih =>
      intro content m hm
      cases content with
      | nil => simp [scanInsertF] at hm
      | cons c rest =>
        simp only [scanInsertF] at hm
        split at hm
        · cases hmt : matchTail (List.drop pat.length (c :: rest)) with
          | none =>
            rw [hmt] at hm
            simp only [Option.elim_none] at hm
            exact ih rest m hm
          | some p =>
            rw [hmt] at hm
            simp only [Option.elim_some] at hm
            rcases List.mem_cons.mp hm with h1 | h1
            · subst h1
              exact matchTail_no_semi _ p hmt
            · exact ih p.2 m h1
        · exact ih rest m hm
  intro content m hm
  exact key content.length content m hm

/-- Lowercasing distributes over append. -/
theorem lowerL_append (a b : List Char) :
    lowerL (a ++ b) = lowerL a ++ lowerL b := List.map_append _ _ _

/-- A list is a Boolean prefix of itself followed by anything. -/
theorem isPrefixOf_self_append : ∀ (l r : List Char), List.isPrefixOf l (l ++ r) = true := by
  intro l r
  induction l with
  | nil => simp [List.isPrefixOf]
  | cons c cs ih => simp [List.isPrefixOf, ih]

/-- Case-insensitive matching succeeds on any case variant of the
pattern followed by anything. -/
theorem prefixCI_of_lower_eq (pat P r : List Char) (h : lowerL P = lowerL pat) :
    prefixCI pat (P ++ r) = true := by
  unfold prefixCI
  rw [lowerL_append, h]
  exact isPrefixOf_self_append _ _

/-- Case-insensitive matching fails when the first characters differ
after lowercasing. -/
theorem prefixCI_cons_false {a : Char} {p2 : List Char} (pat : List Char)
    (c : Char) (l : List Char) (hp : lowerL pat = a :: p2)
    (hne : Char.toLower c ≠ a) : prefixCI pat (c :: l) = false := by
  unfold prefixCI
  rw [hp]
  show List.isPrefixOf (a :: p2) (Char.toLower c :: lowerL l) = false
  simp only [List.isPrefixOf, Bool.and_eq_false_iff]
  left
  simp [Ne.symm hne]

/-- A whitespace character never lowercases to the letter v. -/
theorem pySpace_toLower_ne_v {c : Char} (h : pySpace c = true) :
    Char.toLower c ≠ 'v' := by
  simp only [pySpace, Bool.or_eq_true, decide_eq_true_eq] at h
  rcases h with ((((h | h) | h) | h) | h) | h <;> subst h <;> decide

/-- The VALUES search walks over leading whitespace. -/
theorem matchTail_ws_skip :
    ∀ (u X : List Char), (∀ c ∈ u, pySpace c = true) →
      matchTail (u ++ X) = matchTail X := by
  intro u
  induction u with
  | nil => intro X _; rfl
  | cons c u2 ih =>
    intro X hu
    have hne := pySpace_toLower_ne_v (hu c (by simp))
    show matchTail (c :: (u2 ++ X)) = matchTail X
    simp only [matchTail]
    rw [prefixCI_cons_false "VALUES".data c _ rfl hne]
    simp only [Bool.false_eq_true, if_false]
    exact ih X (fun d hd => hu d (List.mem_cons_of_mem _ hd))

/-- dropWhile walks over a leading all-whitespace block. -/
theorem dropWhile_ws_append :
    ∀ (u w : List Char), (∀ c ∈ u, pySpace c = true) →
      List.dropWhile pySpace (u ++ w) = List.dropWhile pySpace w := by
  intro u
  induction u with
  | nil => intro w _; rfl
  | cons c u2 ih =>
    intro w hu
    show List.dropWhile pySpace (c :: (u2 ++ w)) = _
    rw [List.dropWhile_cons]
    rw [hu c (by simp)]
    simp only [if_true]
    exact ih w (fun d hd => hu d (List.mem_cons_of_mem _ hd))

/-- splitSemi cuts exactly at an explicit first semicolon. -/
theorem splitSemi_append :
    ∀ (l r : List Char), ';' ∉ l → splitSemi (l ++ ';' :: r) = some (l, r) := by
  intro l
  induction l with
  | nil => intro r _; simp [splitSemi]
  | cons c l2 ih =>
    intro r hl
    show splitSemi (c :: (l2 ++ ';' :: r)) = _
    simp only [splitSemi]
    rw [if_neg (by intro hc; exact hl (by simp [hc]))]
    rw [ih r (fun hm => hl (List.mem_cons_of_mem _ hm))]
    rfl

/-- A successful statement match at the very start of the text: the
scan emits the capture and goes on after the semicolon. -/
theorem scanInsert_here (pat P R : List Char) (p : List Char × List Char)
    (hne : P ≠ []) (hlow : lowerL P = lowerL pat)
    (hmt : matchTail R = some p) :
    scanInsert pat (P ++ R) = p.1 :: scanInsert pat p.2 := by
  obtain ⟨c, P2, rfl⟩ : ∃ c P2, P = c :: P2 := by
    cases P with
    | nil => exact absurd rfl hne
    | cons c P2 => exact ⟨c, P2, rfl⟩
  have hpre : prefixCI pat (c :: (P2 ++ R)) = true := by
    have := prefixCI_of_lower_eq pat (c :: P2) R hlow
    simpa using this
  have hlen : pat.length = (c :: P2).length := by
    have hcong := congrArg List.length hlow
    simp only [lowerL, List.length_map] at hcong
    omega
  have hdrop : List.drop pat.length (c :: (P2 ++ R)) = R := by
    have h0 : List.drop (c :: P2).length ((c :: P2) ++ R) = R := List.drop_left _ _
    rw [hlen]
    simp only [List.cons_append] at h0
    exact h0
  have hmt2 : matchTail (List.drop pat.length (c :: (P2 ++ R))) = some p := by
    rw [hdrop]
    exact hmt
  have := scanInsert_cons_some pat c (P2 ++ R) p hpre hmt2
  simpa using this

/-- The statement scan walks over a block in which the first pattern
letter never occurs. -/
theorem scanInsert_skip {a : Char} {p2 : List Char} (pat : List Char)
    (hp : lowerL pat = a :: p2) :
    ∀ (l r : List Char), (∀ c ∈ l, Char.toLower c ≠ a) →
      scanInsert pat (l ++ r) = scanInsert pat r := by
  intro l
  induction l with
  | nil => intro r _; rfl
  | cons c l2 ih =>
    intro r hl
    show scanInsert pat (c :: (l2 ++ r)) = _
    rw [scanInsert_cons_neg pat c _ (prefixCI_cons_false pat c _ hp (hl c (by simp)))]
    exact ih r (fun d hd => hl d (List.mem_cons_of_mem _ hd))

namespace SQLFileParser

/-- The row fold of extract_table_data in filterMap form. -/
theorem rows_foldl_eq (cols : List (List Char)) (rows : List (List Value)) :
    ∀ (acc : List Record),
      rows.foldl
        (fun a row =>
          if row.length = cols.length then a ++ [(cols.map String.mk).zip row]
          else a) acc =
      acc ++ rows.filterMap
        (fun row =>
          if row.length = cols.length then some ((cols.map String.mk).zip row)
          else none) := by
  induction rows with
  | nil => intro acc; simp
  | cons r rs ih =>
    intro acc
    simp only [List.foldl_cons, List.filterMap_cons]
    by_cases hr : r.length = cols.length
    · simp only [hr, if_pos, if_true, ih]
      simp [List.append_assoc]
    · simp [hr, ih]

/-- The table materializer, written as a filter over all tokenized
rows. -/
theorem extract_table_data_eq (content t : List Char) :
    extract_table_data content t =
      ((findInsertMatches content t).flatMap
        (fun m => parse_values_string (stripParens (trimL m)))).filterMap
        (fun row =>
          if row.length = (extractColumns content t).length then
            some (((extractColumns content t).map String.mk).zip row)
          else none) := by
  unfold extract_table_data
  by_cases hms : findInsertMatches content t = []
  · simp [hms]
  · simp only [hms, if_neg, if_false]
    have key : ∀ (ms : List (List Char)) (acc : List Record),
        ms.foldl
          (fun all m =>
            (parse_values_string (stripParens (trimL m))).foldl
              (fun a row =>
                if row.length = (extractColumns content t).length then
                  a ++ [((extractColumns content t).map String.mk).zip row]
                else a) all) acc =
        acc ++ (ms.flatMap
          (fun m => parse_values_string (stripParens (trimL m)))).filterMap
          (fun row =>
            if row.length = (extractColumns content t).length then
              some (((extractColumns content t).map String.mk).zip row)
            else none) := by
      intro ms
      induction ms with
      | nil => intro acc; simp
      | cons m ms ih =>
        intro acc
        simp only [List.foldl_cons, List.flatMap_cons, List.filterMap_append]
        rw [rows_foldl_eq, ih]
        simp [List.append_assoc]
    simpa using key (findInsertMatches content t) []

/-- The constraint-keyword tests of the column filter are redundant
behind the backtick test. -/
theorem cols_cond (l : List Char) :
    (startsWithL btc l && !(List.isPrefixOf "PRIMARY".data l)
      && !(List.isPrefixOf "KEY".data l)) = startsWithL btc l := by
  cases l with
  | nil => rfl
  | cons c r =>
    by_cases hc : c = btc
    · subst hc
      have h1 : List.isPrefixOf "PRIMARY".data (btc :: r) = false := rfl
      have h2 : List.isPrefixOf "KEY".data (btc :: r) = false := rfl
      rw [h1, h2]
      simp
    · have h0 : startsWithL btc (c :: r) = false := by
        simp [startsWithL, hc]
      rw [h0]
      simp

/-- The column fold of extract_table_data in filterMap form. -/
theorem extractColumns_eq (content t body : List Char)
    (h : extract_create_body content t = some body) :
    extractColumns content t =
      (splitOnCharL (Char.ofNat 10) body).filterMap
        (fun line =>
          if startsWithL btc (trimL line) then
            some ((splitOnCharL btc (trimL line)).getD 1 [])
          else none) := by
  unfold extractColumns
  rw [h]
  have hfun : (fun (cols : List (List Char)) (line : List Char) =>
        let l := trimL line
        if startsWithL btc l && !(List.isPrefixOf "PRIMARY".data l)
            && !(List.isPrefixOf "KEY".data l)
        then cols ++ [(splitOnCharL btc l).getD 1 []]
        else cols) =
      (fun cols line =>
        if startsWithL btc (trimL line) then
          cols ++ [(splitOnCharL btc (trimL line)).getD 1 []]
        else cols) := by
    funext cols line
    show (if (startsWithL btc (trimL line) && !(List.isPrefixOf "PRIMARY".data (trimL line))
            && !(List.isPrefixOf "KEY".data (trimL line))) = true
        then cols ++ [(splitOnCharL btc (trimL line)).getD 1 []]
        else cols) = _
    rw [cols_cond]
  rw [hfun]
  have key : ∀ (lines : List (List Char)) (acc : List (List Char)),
      lines.foldl
        (fun cols line =>
          if startsWithL btc (trimL line) then
            cols ++ [(splitOnCharL btc (trimL line)).getD 1 []]
          else cols) acc =
      acc ++ lines.filterMap
        (fun line =>
          if startsWithL btc (trimL line) then
            some ((splitOnCharL btc (trimL line)).getD 1 [])
          else none) := by
    intro lines
    induction lines with
    | nil => intro acc; simp
    | cons line ls ih =>
      intro acc
      simp only [List.foldl_cons, List.filterMap_cons]
      by_cases hl : startsWithL btc (trimL line) = true
      · rw [if_pos hl, if_pos hl, ih]
        simp [List.append_assoc]
      · rw [if_neg hl, if_neg hl, ih]
  simpa using key (splitOnCharL (Char.ofNat 10) body) []

end SQLFileParser

/-- C5: the Table Dataset holds exactly the tokenized rows of matching
arity, zipped with the column names in column order, in encounter order
across all statements; rows of any other arity are dropped with no
partial record. -/
theorem claim5 (content t : List Char) :
    SQLFileParser.extract_table_data content t =
      ((SQLFileParser.findInsertMatches content t).flatMap
        (fun m => SQLFileParser.parse_values_string
          (SQLFileParser.stripParens (trimL m)))).filterMap
        (fun row =>
          if row.length = (SQLFileParser.extractColumns content t).length then
            some (((SQLFileParser.extractColumns content t).map String.mk).zip row)
          else none) :=
  SQLFileParser.extract_table_data_eq content t

/-- C8: with no matching CREATE TABLE block the Column List is empty
and nothing is raised; with a block, the Column List holds exactly, in
textual order, the text between the first backtick pair of each body
line that begins, after trimming, with a backtick. -/
theorem claim8 (content t : List Char) :
    (SQLFileParser.extract_create_body content t = none →
      SQLFileParser.extractColumns content t = []) ∧
    (∀ body, SQLFileParser.extract_create_body content t = some body →
      SQLFileParser.extractColumns content t =
        (splitOnCharL (Char.ofNat 10) body).filterMap
          (fun line =>
            if startsWithL btc (trimL line) then
              some ((splitOnCharL btc (trimL line)).getD 1 [])
            else none)) := by
  constructor
  · intro h
    unfold SQLFileParser.extractColumns
    rw [h]
  · intro body h
    exact SQLFileParser.extractColumns_eq content t body h

/-- Witness for claim8 on a dump whose CREATE TABLE body mixes column
lines with PRIMARY KEY and KEY lines. -/
theorem claim8_witness :
    SQLFileParser.extractColumns
        "CREATE TABLE `t` (\n `id` int,\n `name` varchar(50),\n PRIMARY KEY (`id`),\n KEY idx (`name`)\n) ENGINE=X;".data
        "t".data =
      (splitOnCharL (Char.ofNat 10)
        "\n `id` int,\n `name` varchar(50),\n PRIMARY KEY (`id`),\n KEY idx (`name`)\n".data).filterMap
        (fun line =>
          if startsWithL btc (trimL line) then
            some ((splitOnCharL btc (trimL line)).getD 1 [])
          else none) :=
  (claim8 _ _).2 _ (by decide)

/-- C10: the captured tuple text of a statement never contains a
semicolon — it always ends at the first semicolon after VALUES, quote
state ignored — so a quoted value holding a semicolon truncates the
capture and loses the values after it. -/
theorem claim10 :
    (∀ (content t m : List Char),
      m ∈ SQLFileParser.findInsertMatches content t → ';' ∉ m) ∧
    SQLFileParser.findInsertMatches
        ("INSERT INTO `t` VALUES (".data ++ sqc :: "a;b".data ++ sqc :: ");".data)
        "t".data =
      [("(".data ++ [sqc, 'a'])] := by
  constructor
  · intro content t m hm
    exact scanInsert_no_semi _ _ _ hm
  · decide

/-- Witness for claim10 on the truncated capture itself. -/
theorem claim10_witness :
    ("(".data ++ [sqc, 'a']) ∈
      SQLFileParser.findInsertMatches
        ("INSERT INTO `t` VALUES (".data ++ sqc :: "a;b".data ++ sqc :: ");".data)
        "t".data ∧
    ';' ∉ ("(".data ++ [sqc, 'a']) :=
  ⟨by decide,
   claim10.1 ("INSERT INTO `t` VALUES (".data ++ sqc :: "a;b".data ++ sqc :: ");".data)
     "t".data ("(".data ++ [sqc, 'a']) (by decide)⟩

/-- C1 fails on the code: the doubled single quote inside the third
value is not resolved to one quote character. -/
theorem claim1_counterexample :
    SQLFileParser.extract_table_data c1Dump "t".data ≠
      [[("col1", Value.null), ("col2", Value.text "a,b"),
        ("col3", Value.text (String.mk ("it".data ++ sqc :: "s".data)))]] := by
  decide

/-- C1 amended: the tuple still tokenizes into one three-value row — the
comma inside quotes does not split and NULL maps to the null value — but
the doubled single quote is preserved verbatim, the normalizer resolving
only backslash escapes. -/
theorem claim1_amended (c1 c2 c3 : String) :
    (SQLFileParser.parse_values_string
        (SQLFileParser.stripParens (trimL c1Tuple))).map
        (fun row => List.zip [c1, c2, c3] row) =
      [[(c1, Value.null), (c2, Value.text "a,b"),
        (c3, Value.text (String.mk ("it".data ++ sqc :: sqc :: "s".data)))]] ∧
    SQLFileParser.extract_table_data c1Dump "t".data =
      [[("col1", Value.null), ("col2", Value.text "a,b"),
        ("col3", Value.text (String.mk ("it".data ++ sqc :: sqc :: "s".data)))]] := by
  constructor
  · have hp : SQLFileParser.parse_values_string
        (SQLFileParser.stripParens (trimL c1Tuple)) =
        [[Value.null, Value.text "a,b",
          Value.text (String.mk ("it".data ++ sqc :: sqc :: "s".data))]] := by
      decide
    rw [hp]
    rfl
  · decide

/-- C2 fails on the code: moving the single space between INSERT INTO
and the table name to a newline, or doubling it, loses the match, while
the one-space form matches. -/
theorem claim2_counterexample :
    SQLFileParser.findInsertMatches "INSERT INTO\n`t` VALUES (1);".data "t".data = [] ∧
    SQLFileParser.findInsertMatches "INSERT  INTO `t` VALUES (1);".data "t".data = [] ∧
    SQLFileParser.findInsertMatches "INSERT INTO `t` VALUES (1);".data "t".data =
      ["(1)".data] := by
  decide

/-- After any case variant of the VALUES keyword, the match is the
semicolon split of what follows its whitespace run. -/
theorem matchTail_here (kw X : List Char) (hkw : lowerL kw = "values".data) :
    matchTail (kw ++ X) = splitSemi (List.dropWhile pySpace X) := by
  obtain ⟨k0, kt, rfl⟩ : ∃ k0 kt, kw = k0 :: kt := by
    cases kw with
    | nil =>
      have := congrArg List.length hkw
      simp [lowerL] at this
    | cons a b => exact ⟨a, b, rfl⟩
  have hpre : prefixCI "VALUES".data ((k0 :: kt) ++ X) = true :=
    prefixCI_of_lower_eq _ _ _ (by rw [hkw]; decide)
  have hlen : (k0 :: kt).length = 6 := by
    have := congrArg List.length hkw
    simpa [lowerL] using this
  show matchTail (k0 :: (kt ++ X)) = _
  simp only [matchTail]
  rw [show prefixCI "VALUES".data (k0 :: (kt ++ X)) = true by simpa using hpre]
  simp only [if_true]
  congr 1
  rw [← hlen]
  have h0 := List.drop_left (k0 :: kt) X
  simp only [List.cons_append] at h0
  rw [h0]

/-- C2 amended: the keywords INSERT INTO and VALUES match in any letter
case, and any amount of whitespace may stand between the table name and
VALUES and between VALUES and the tuple list, without changing the
extracted tuple list; but the single spaces inside INSERT INTO and
between INTO and the backtick are rigid, as the counterexample
shows. -/
theorem claim2_amended (kwIns kwVal t u v : List Char) (b0 : Char)
    (brest : List Char)
    (hIns : lowerL kwIns = "insert into".data)
    (hVal : lowerL kwVal = "values".data)
    (hu : ∀ c ∈ u, pySpace c = true)
    (hv : ∀ c ∈ v, pySpace c = true)
    (hb0 : pySpace b0 = false)
    (hsemi : ';' ∉ b0 :: brest) :
    SQLFileParser.findInsertMatches
        (kwIns ++ ' ' :: btc :: (t ++ btc ::
          (u ++ kwVal ++ v ++ b0 :: brest ++ [';']))) t =
      [b0 :: brest] := by
  have hmtR : matchTail (u ++ kwVal ++ v ++ b0 :: brest ++ [';']) =
      some (b0 :: brest, []) := by
    have h1 : u ++ kwVal ++ v ++ b0 :: brest ++ [';'] =
        u ++ (kwVal ++ (v ++ (b0 :: brest ++ [';']))) := by
      simp [List.append_assoc]
    rw [h1, matchTail_ws_skip u _ hu, matchTail_here kwVal _ hVal,
      dropWhile_ws_append v _ hv]
    have h3 : List.dropWhile pySpace (b0 :: (brest ++ [';'])) =
        b0 :: (brest ++ [';']) := by
      simp [hb0]
    show splitSemi (List.dropWhile pySpace (b0 :: (brest ++ [';']))) =
      some (b0 :: brest, [])
    rw [h3]
    rw [show b0 :: (brest ++ [';']) = (b0 :: brest) ++ ';' :: [] from by simp]
    rw [splitSemi_append (b0 :: brest) [] hsemi]
  have hshape : kwIns ++ ' ' :: btc :: (t ++ btc ::
        (u ++ kwVal ++ v ++ b0 :: brest ++ [';'])) =
      (kwIns ++ ' ' :: btc :: (t ++ [btc])) ++
        (u ++ kwVal ++ v ++ b0 :: brest ++ [';']) := by
    simp [List.append_assoc]
  have hlow : lowerL (kwIns ++ ' ' :: btc :: (t ++ [btc])) =
      lowerL (insertPat t) := by
    rw [lowerL_append, hIns]
    unfold insertPat
    rw [lowerL_append]
    rw [show lowerL "INSERT INTO ".data = "insert into".data ++ [' '] from by decide]
    simp [lowerL, List.append_assoc, show Char.toLower ' ' = ' ' from by decide,
      show Char.toLower btc = btc from by decide]
  unfold SQLFileParser.findInsertMatches
  rw [hshape]
  rw [scanInsert_here (insertPat t) _ _ (b0 :: brest, []) (by simp) hlow hmtR]
  rfl

/-- Witness for claim2 amended, with mixed-case keywords, newlines
before VALUES and a space after it. -/
theorem claim2_amended_witness :
    (lowerL "iNsErT InTo".data = "insert into".data ∧
      lowerL "VaLuEs".data = "values".data) ∧
    SQLFileParser.findInsertMatches
        ("iNsErT InTo".data ++ ' ' :: btc :: ("t".data ++ btc ::
          ("\n\n".data ++ "VaLuEs".data ++ " ".data ++ '(' :: "1)".data ++ [';'])))
        "t".data =
      ['(' :: "1)".data] :=
  ⟨⟨by decide, by decide⟩,
   claim2_amended "iNsErT InTo".data "VaLuEs".data "t".data "\n\n".data " ".data
     '(' "1)".data (by decide) (by decide) (by decide) (by decide) (by decide)
     (by decide)⟩

/-- Witness for claim7 on an empty dump: the five entries are present
and, the dump holding no INSERT statement at all, extraction of any
absent table is empty. -/
theorem claim7_witness :
    SQLFileParser.parse_sql_file (fun _ => Except.ok "") "dump.sql" =
      Except.ok
        [("users", SQLFileParser.extract_table_data "".data "is_user".data),
         ("admins", SQLFileParser.extract_table_data "".data "is_admin".data),
         ("accounts", SQLFileParser.extract_table_data "".data "is_account".data),
         ("tickets", SQLFileParser.extract_table_data "".data "is_ticket".data),
         ("ssl", SQLFileParser.extract_table_data "".data "is_ssl".data)] :=
  (claim7 (fun _ => Except.ok "") "dump.sql" "" rfl).1

/-- dropWhile keeps a list whose first character is not whitespace. -/
theorem dropWhile_head_false (c : Char) (l : List Char)
    (hc : pySpace c = false) :
    List.dropWhile pySpace (c :: l) = c :: l := by
  simp [hc]

/-- trim leaves a singleton non-whitespace character alone. -/
theorem trimL_single (c : Char) (hc : pySpace c = false) :
    trimL [c] = [c] := by
  unfold trimL
  rw [dropWhile_head_false c [] hc]
  simp only [List.reverse_cons, List.reverse_nil, List.nil_append]
  rw [dropWhile_head_false c [] hc]
  simp

/-- trim leaves a list alone whose two exposed ends are not
whitespace. -/
theorem trimL_shape (c : Char) (mid : List Char) (d : Char)
    (hc : pySpace c = false) (hd : pySpace d = false) :
    trimL (c :: (mid ++ [d])) = c :: (mid ++ [d]) := by
  unfold trimL
  rw [dropWhile_head_false _ _ hc]
  have h2 : (c :: (mid ++ [d])).reverse = d :: (mid.reverse ++ [c]) := by
    simp
  rw [h2]
  rw [dropWhile_head_false _ _ hd]
  rw [← h2, List.reverse_reverse]

/-- trim leaves any list alone whose head and last characters are not
whitespace. -/
theorem trimL_eq_self (l : List Char) (hne : l ≠ [])
    (hh : ∀ c, l.head? = some c → pySpace c = false)
    (hl : ∀ c, l.getLast? = some c → pySpace c = false) :
    trimL l = l := by
  obtain ⟨c, rest, rfl⟩ : ∃ c rest, l = c :: rest := by
    cases l with
    | nil => exact absurd rfl hne
    | cons c rest => exact ⟨c, rest, rfl⟩
  cases hr : rest.eq_nil_or_concat with
  | inl h0 =>
    subst h0
    exact trimL_single c (hh c rfl)
  | inr h0 =>
    obtain ⟨mid, d, rfl⟩ := h0
    rw [List.concat_eq_append]
    refine trimL_shape c mid d (hh c rfl) (hl d ?_)
    rw [show c :: mid.concat d = (c :: mid) ++ [d] from by
      simp [List.concat_eq_append]]
    exact List.getLast?_concat _

/-- trim walks over a leading whitespace character. -/
theorem trimL_cons_space (c : Char) (l : List Char) (hc : pySpace c = true) :
    trimL (c :: l) = trimL l := by
  unfold trimL
  congr 2
  simp [hc]

/-- The last element of a list ending in an explicit element. -/
theorem endsWithL_concat (l : List Char) (d : Char) :
    endsWithL d (l ++ [d]) = true := by
  unfold endsWithL
  rw [List.getLast?_concat]
  simp

/-- The column name characters. -/
theorem colName_mem (j : Nat) : ∀ c ∈ colName j, c = 'c' ∨ c = 'x' := by
  intro c hc
  unfold colName at hc
  rcases List.mem_cons.mp hc with h | h
  · exact Or.inl h
  · exact Or.inr (List.eq_of_mem_replicate h)

/-- The value token characters. -/
theorem valTok_mem (i j : Nat) :
    ∀ c ∈ valTok i j, c = 'v' ∨ c = 'a' ∨ c = 'w' := by
  intro c hc
  unfold valTok at hc
  rcases List.mem_cons.mp hc with h | h
  · exact Or.inl h
  · rcases List.mem_append.mp h with h2 | h2
    · exact Or.inr (Or.inl (List.eq_of_mem_replicate h2))
    · rcases List.mem_cons.mp h2 with h3 | h3
      · exact Or.inr (Or.inr h3)
      · exact Or.inr (Or.inl (List.eq_of_mem_replicate h3))

/-- Value tokens are never empty. -/
theorem valTok_ne_nil (i j : Nat) : valTok i j ≠ [] := by
  unfold valTok
  simp

/-- The characters of one column line of the synthetic schema. -/
theorem colLine_mem (j : Nat) :
    ∀ c ∈ colLine j,
      c = ' ' ∨ c = btc ∨ c = 'c' ∨ c = 'x' ∨ c = 't' ∨ c = 'e' ∨ c = ',' := by
  intro c hc
  unfold colLine at hc
  simp only [List.mem_append, List.mem_cons, List.not_mem_nil, or_false] at hc
  have hcn := colName_mem j c
  tauto

/-- The characters of the synthetic CREATE TABLE body. -/
theorem createBodyD_mem (M : Nat) :
    ∀ c ∈ createBodyD M,
      c = Char.ofNat 10 ∨ c = ' ' ∨ c = btc ∨ c = 'c' ∨ c = 'x' ∨
        c = 't' ∨ c = 'e' ∨ c = ',' := by
  intro c hc
  unfold createBodyD at hc
  rcases List.mem_append.mp hc with h | h
  · rcases List.mem_flatten.mp h with ⟨piece, hp, hcp⟩
    rcases List.mem_map.mp hp with ⟨j, _, rfl⟩
    rcases List.mem_cons.mp hcp with h2 | h2
    · exact Or.inl h2
    · have h3 := colLine_mem j c h2
      tauto
  · rcases List.mem_singleton.mp h with rfl
    exact Or.inl rfl
/-- The schema body capture walks over characters free of close
parentheses. -/
theorem scanBody_append (l r : List Char) (h : ')' ∉ l) :
    scanBody (l ++ r) = (scanBody r).map (l ++ ·) := by
  induction l with
  | nil => simp
  | cons c l2 ih =>
    show scanBody (c :: (l2 ++ r)) = _
    simp only [scanBody]
    rw [if_neg]
    · rw [ih (fun hm => h (List.mem_cons_of_mem _ hm))]
      cases scanBody r <;> simp
    · intro hc
      rcases Bool.and_eq_true .. |>.mp hc with ⟨h1, _⟩
      exact h (by simp [of_decide_eq_true h1])

/-- The schema body capture stops at a close parenthesis followed,
after whitespace, by the ENGINE keyword. -/
theorem scanBody_stop (r : List Char)
    (h : prefixCI "ENGINE".data (List.dropWhile pySpace r) = true) :
    scanBody (')' :: r) = some [] := by
  simp only [scanBody]
  rw [if_pos]
  simp [h]

/-- createTail on a space, an open parenthesis and the body. -/
theorem createTail_space_paren (X : List Char) :
    createTail (' ' :: '(' :: X) = scanBody X := by
  unfold createTail
  rw [show List.dropWhile pySpace (' ' :: '(' :: X) = '(' :: X from by
    simp [pySpace]]
  simp

/-- A successful schema match at the very start of the text. -/
theorem searchCreate_here (pat P R : List Char) (cap : List Char)
    (hne : P ≠ []) (hlow : lowerL P = lowerL pat)
    (hct : createTail R = some cap) :
    searchCreate pat (P ++ R) = some cap := by
  obtain ⟨c, P2, rfl⟩ : ∃ c P2, P = c :: P2 := by
    cases P with
    | nil => exact absurd rfl hne
    | cons c P2 => exact ⟨c, P2, rfl⟩
  have hpre : prefixCI pat (c :: (P2 ++ R)) = true := by
    have := prefixCI_of_lower_eq pat (c :: P2) R hlow
    simpa using this
  have hlen : pat.length = (c :: P2).length := by
    have hcong := congrArg List.length hlow
    simp only [lowerL, List.length_map] at hcong
    omega
  have hdrop : List.drop pat.length (c :: (P2 ++ R)) = R := by
    have h0 : List.drop (c :: P2).length ((c :: P2) ++ R) = R := List.drop_left _ _
    rw [hlen]
    simp only [List.cons_append] at h0
    exact h0
  show searchCreate pat (c :: (P2 ++ R)) = some cap
  simp only [searchCreate]
  rw [hpre, hdrop, hct]
  simp

/-- The shape of the synthetic dump as literal prefix plus schema
tail. -/
theorem mkDump_shape (N M : Nat) :
    mkDump N M = createPat "t".data ++
      (' ' :: '(' :: (createBodyD M ++ ')' ::
        (' ' :: ("ENGINE=X;\n".data ++ insertPartD N M)))) := by
  unfold mkDump createPartD
  simp [List.append_assoc]

/-- The schema extraction of the synthetic dump finds exactly the
synthetic body. -/
theorem extract_create_mkDump (N M : Nat) :
    SQLFileParser.extract_create_body (mkDump N M) "t".data =
      some (createBodyD M) := by
  unfold SQLFileParser.extract_create_body
  rw [mkDump_shape]
  apply searchCreate_here _ _ _ _ (by simp [createPat]) rfl
  rw [createTail_space_paren]
  have hb : (')' : Char) ∉ createBodyD M := by
    intro hm
    rcases createBodyD_mem M ')' hm with h | h | h | h | h | h | h | h <;>
      exact absurd h (by decide)
  rw [show createBodyD M ++ ')' :: (' ' :: ("ENGINE=X;\n".data ++ insertPartD N M)) =
      createBodyD M ++ (')' :: (' ' :: ("ENGINE=X;\n".data ++ insertPartD N M)))
    from rfl]
  rw [scanBody_append _ _ hb]
  rw [scanBody_stop]
  · simp
  · rw [show List.dropWhile pySpace (' ' :: ("ENGINE=X;\n".data ++ insertPartD N M)) =
        "ENGINE=X;\n".data ++ insertPartD N M from by simp [pySpace]]
    rw [show ("ENGINE=X;\n".data : List Char) =
        "ENGINE".data ++ "=X;\n".data from by decide]
    rw [List.append_assoc]
    exact prefixCI_of_lower_eq _ _ _ rfl

/-- Splitting never yields the empty list of pieces. -/
theorem splitOnCharL_ne_nil (sep : Char) :
    ∀ (l : List Char), splitOnCharL sep l ≠ [] := by
  intro l
  cases l with
  | nil => simp [splitOnCharL]
  | cons c rest =>
    simp only [splitOnCharL]
    split
    · simp
    · cases splitOnCharL sep rest <;> simp

/-- Splitting walks into the first piece over separator-free text. -/
theorem splitOnCharL_append (sep : Char) :
    ∀ (l r : List Char) (p : List Char) (ps : List (List Char)),
      sep ∉ l → splitOnCharL sep r = p :: ps →
      splitOnCharL sep (l ++ r) = (l ++ p) :: ps := by
  intro l
  induction l with
  | nil => intro r p ps _ h; simpa using h
  | cons c l2 ih =>
    intro r p ps hsep h
    show splitOnCharL sep (c :: (l2 ++ r)) = _
    simp only [splitOnCharL]
    rw [if_neg (fun hc => hsep (by simp [hc]))]
    rw [ih r p ps (fun hm => hsep (by simp [hm])) h]
    rfl

/-- Splitting at an explicit leading separator. -/
theorem splitOnCharL_cons_sep (sep : Char) (r : List Char) :
    splitOnCharL sep (sep :: r) = [] :: splitOnCharL sep r := by
  simp [splitOnCharL]

/-- The line split of the synthetic CREATE TABLE body: an empty first
line, the column lines, an empty last line. -/
theorem split_createBodyD (M : Nat) :
    splitOnCharL (Char.ofNat 10) (createBodyD M) =
      [] :: ((List.range M).map colLine ++ [[]]) := by
  unfold createBodyD
  have key : ∀ (js : List Nat),
      splitOnCharL (Char.ofNat 10)
        ((js.map (fun j => Char.ofNat 10 :: colLine j)).flatten ++ [Char.ofNat 10]) =
      [] :: (js.map colLine ++ [[]]) := by
    intro js
    induction js with
    | nil => simp [splitOnCharL]
    | cons j js2 ih =>
      simp only [List.map_cons, List.flatten_cons, List.cons_append,
        List.append_assoc]
      rw [splitOnCharL_cons_sep]
      have hnl : (Char.ofNat 10) ∉ colLine j := by
        intro hm
        rcases colLine_mem j _ hm with h | h | h | h | h | h | h <;>
          exact absurd h (by decide)
      rw [splitOnCharL_append _ _ _ _ _ hnl ih]
      simp
  exact key (List.range M)

/-- The trimmed column line. -/
theorem trim_colLine (j : Nat) :
    trimL (colLine j) =
      btc :: ((colName j ++ btc :: " text".data) ++ [',']) := by
  unfold colLine
  rw [show (' ' :: ' ' :: btc :: (colName j ++ btc :: " text".data)) ++ [','] =
      ' ' :: (' ' :: (btc :: ((colName j ++ btc :: " text".data) ++ [','])))
    from by simp]
  rw [trimL_cons_space _ _ (by decide), trimL_cons_space _ _ (by decide)]
  exact trimL_shape btc _ ',' (by decide) (by decide)

/-- The column name taken from a trimmed column line. -/
theorem colOf_colLine (j : Nat) :
    (splitOnCharL btc (trimL (colLine j))).getD 1 [] = colName j := by
  rw [trim_colLine]
  rw [splitOnCharL_cons_sep]
  have hbt : btc ∉ colName j := by
    intro hm
    rcases colName_mem j _ hm with h | h <;> exact absurd h (by decide)
  have hsplit : splitOnCharL btc ((colName j ++ btc :: " text".data) ++ [',']) =
      (colName j ++ []) :: splitOnCharL btc (" text".data ++ [',']) := by
    rw [show (colName j ++ btc :: " text".data) ++ [','] =
        colName j ++ (btc :: (" text".data ++ [','])) from by simp]
    exact splitOnCharL_append btc (colName j) _ [] _ hbt
      (splitOnCharL_cons_sep btc _)
  rw [hsplit]
  simp

/-- The column extraction of the synthetic dump. -/
theorem columns_mkDump (N M : Nat) :
    SQLFileParser.extractColumns (mkDump N M) "t".data =
      (List.range M).map colName := by
  rw [SQLFileParser.extractColumns_eq _ _ _ (extract_create_mkDump N M)]
  rw [split_createBodyD]
  rw [List.filterMap_cons]
  rw [show (if startsWithL btc (trimL ([] : List Char)) then
      some ((splitOnCharL btc (trimL ([] : List Char))).getD 1 []) else none) = none
    from by decide]
  rw [List.filterMap_append]
  rw [show List.filterMap (fun line =>
      if startsWithL btc (trimL line) then
        some ((splitOnCharL btc (trimL line)).getD 1 []) else none) [([] : List Char)] = []
    from by decide]
  rw [List.append_nil]
  have key : ∀ (js : List Nat),
      List.filterMap (fun line =>
        if startsWithL btc (trimL line) then
          some ((splitOnCharL btc (trimL line)).getD 1 []) else none)
        (js.map colLine) = js.map colName := by
    intro js
    induction js with
    | nil => rfl
    | cons j js2 ih =>
      simp only [List.map_cons, List.filterMap_cons]
      rw [if_pos (by rw [trim_colLine]; rfl)]
      rw [colOf_colLine, ih]
  exact key (List.range M)

/-- The characters of the joined value tokens of one synthetic row. -/
theorem joinCommaSep_mem (toks : List (List Char)) :
    ∀ c ∈ joinCommaSep toks, c = ',' ∨ ∃ tk ∈ toks, c ∈ tk := by
  induction toks with
  | nil => intro c hc; simp [joinCommaSep] at hc
  | cons x xs ih =>
    intro c hc
    cases xs with
    | nil =>
      simp only [joinCommaSep] at hc
      exact Or.inr ⟨x, by simp, hc⟩
    | cons y ys =>
      simp only [joinCommaSep] at hc
      rcases List.mem_append.mp hc with h | h
      · exact Or.inr ⟨x, by simp, h⟩
      · rcases List.mem_cons.mp h with h2 | h2
        · exact Or.inl h2
        · rcases ih c h2 with h3 | ⟨tk, htk, hctk⟩
          · exact Or.inl h3
          · exact Or.inr ⟨tk, List.mem_cons_of_mem _ htk, hctk⟩

/-- The characters of the tuple boundaries and rows of the synthetic
tuple text. -/
theorem rowsTextSep_mem (rs : List (List (List Char))) :
    ∀ c ∈ rowsTextSep rs,
      c = '(' ∨ c = ')' ∨ c = ',' ∨ ∃ r ∈ rs, ∃ tk ∈ r, c ∈ tk := by
  induction rs with
  | nil => intro c hc; simp [rowsTextSep] at hc
  | cons r rs2 ih =>
    intro c hc
    cases rs2 with
    | nil =>
      simp only [rowsTextSep] at hc
      rcases joinCommaSep_mem r c hc with h | ⟨tk, htk, hctk⟩
      · exact Or.inr (Or.inr (Or.inl h))
      · exact Or.inr (Or.inr (Or.inr ⟨r, by simp, tk, htk, hctk⟩))
    | cons r2 rs3 =>
      simp only [rowsTextSep] at hc
      rcases List.mem_append.mp hc with h | h
      · rcases joinCommaSep_mem r c h with h2 | ⟨tk, htk, hctk⟩
        · exact Or.inr (Or.inr (Or.inl h2))
        · exact Or.inr (Or.inr (Or.inr ⟨r, by simp, tk, htk, hctk⟩))
      · rcases List.mem_cons.mp h with h2 | h2
        · exact Or.inr (Or.inl h2)
        · rcases List.mem_cons.mp h2 with h3 | h3
          · exact Or.inr (Or.inr (Or.inl h3))
          · rcases List.mem_cons.mp h3 with h4 | h4
            · exact Or.inl h4
            · rcases ih c h4 with h5 | h5 | h5 | ⟨rr, hrr, tk, htk, hctk⟩
              · exact Or.inl h5
              · exact Or.inr (Or.inl h5)
              · exact Or.inr (Or.inr (Or.inl h5))
              · exact Or.inr (Or.inr (Or.inr
                  ⟨rr, List.mem_cons_of_mem _ hrr, tk, htk, hctk⟩))

/-- The characters of a synthetic row are tuple punctuation or value
letters. -/
theorem synthRow_mem (i M : Nat) (c : Char) (tk : List Char)
    (htk : tk ∈ rowToks i M) (hc : c ∈ tk) :
    c = 'v' ∨ c = 'a' ∨ c = 'w' := by
  unfold rowToks at htk
  rcases List.mem_map.mp htk with ⟨j, _, rfl⟩
  exact valTok_mem i j c hc

/-- The characters of the full synthetic tuple text. -/
theorem tuplesText_mem (N M : Nat) :
    ∀ c ∈ tuplesText N M,
      c = '(' ∨ c = ')' ∨ c = ',' ∨ c = 'v' ∨ c = 'a' ∨ c = 'w' := by
  intro c hc
  unfold tuplesText at hc
  rcases List.mem_cons.mp hc with h | h
  · exact Or.inl h
  · rcases List.mem_append.mp h with h2 | h2
    · rcases rowsTextSep_mem _ c h2 with h3 | h3 | h3 | ⟨r, hr, tk, htk, hctk⟩
      · exact Or.inl h3
      · exact Or.inr (Or.inl h3)
      · exact Or.inr (Or.inr (Or.inl h3))
      · rcases List.mem_map.mp hr with ⟨i, _, rfl⟩
        rcases synthRow_mem i M c tk htk hctk with h4 | h4 | h4
        · exact Or.inr (Or.inr (Or.inr (Or.inl h4)))
        · exact Or.inr (Or.inr (Or.inr (Or.inr (Or.inl h4))))
        · exact Or.inr (Or.inr (Or.inr (Or.inr (Or.inr h4))))
    · rcases List.mem_singleton.mp h2 with rfl
      exact Or.inr (Or.inl rfl)

/-- The synthetic tuple text holds no semicolon. -/
theorem tuplesText_no_semi (N M : Nat) : (';' : Char) ∉ tuplesText N M := by
  intro hm
  rcases tuplesText_mem N M ';' hm with h | h | h | h | h | h <;>
    exact absurd h (by decide)

/-- No character before the ENGINE keyword of the synthetic dump
lowercases to the letter i. -/
theorem createFront_no_i (M : Nat) :
    ∀ c ∈ createPat "t".data ++ (' ' :: '(' :: createBodyD M) ++ [')', ' '],
      Char.toLower c ≠ 'i' := by
  intro c hc
  rcases List.mem_append.mp hc with h | h
  · rcases List.mem_append.mp h with h1 | h1
    · have : c ∈ "CREATE TABLE `t`".data := by
        simpa [createPat] using h1
      fin_cases this <;> decide
    · rcases List.mem_cons.mp h1 with h2 | h2
      · subst h2; decide
      · rcases List.mem_cons.mp h2 with h3 | h3
        · subst h3; decide
        · rcases createBodyD_mem M c h3 with h4 | h4 | h4 | h4 | h4 | h4 | h4 | h4 <;>
            (subst h4; decide)
  · fin_cases h <;> decide

/-- The statement scan of the synthetic dump: the whole dump before the
I of ENGINE is walked over, the I of ENGINE fails the three-letter
check, and the rest up to the INSERT statement is walked over too. -/
theorem scanInsert_mkDump (N M : Nat) :
    scanInsert (insertPat "t".data) (mkDump N M) =
      scanInsert (insertPat "t".data) (insertPartD N M) := by
  have hshape : mkDump N M =
      (createPat "t".data ++ (' ' :: '(' :: createBodyD M) ++ [')', ' ']) ++
        ('E' :: 'N' :: 'G' :: ('I' :: ('N' :: 'E' :: '=' :: 'X' :: ';' :: Char.ofNat 10 ::
          insertPartD N M)) ) := by
    unfold mkDump createPartD
    rw [show (" ENGINE=X;\n".data : List Char) =
        [' ', 'E', 'N', 'G', 'I', 'N', 'E', '=', 'X', ';', Char.ofNat 10] from by decide]
    simp [List.append_assoc, createPat]
  rw [hshape]
  have hpatlow : ∃ p2, lowerL (insertPat "t".data) = 'i' :: p2 :=
    ⟨"nsert into `t`".data, by decide⟩
  obtain ⟨p2, hp2⟩ := hpatlow
  rw [scanInsert_skip _ hp2 _ _ (createFront_no_i M)]
  rw [show ('E' :: 'N' :: 'G' :: ('I' :: ('N' :: 'E' :: '=' :: 'X' :: ';' ::
        Char.ofNat 10 :: insertPartD N M))) =
      ['E', 'N', 'G'] ++ ('I' :: ('N' :: 'E' :: '=' :: 'X' :: ';' ::
        Char.ofNat 10 :: insertPartD N M)) from rfl]
  rw [scanInsert_skip _ hp2 ['E', 'N', 'G'] _ (by intro c hc; fin_cases hc <;> decide)]
  have hIstep : prefixCI (insertPat "t".data)
      ('I' :: ('N' :: 'E' :: '=' :: 'X' :: ';' :: Char.ofNat 10 :: insertPartD N M)) =
        false := by
    unfold prefixCI
    rw [show lowerL (insertPat "t".data) = "insert into `t`".data from by decide]
    show List.isPrefixOf "insert into `t`".data
      ('i' :: 'n' :: 'e' :: lowerL ('=' :: 'X' :: ';' :: Char.ofNat 10 :: insertPartD N M)) = false
    rw [show ("insert into `t`".data : List Char) =
      'i' :: 'n' :: 's' :: "ert into `t`".data from by decide]
    simp [List.isPrefixOf]
  rw [scanInsert_cons_neg _ _ _ hIstep]
  rw [show ('N' :: 'E' :: '=' :: 'X' :: ';' :: Char.ofNat 10 :: insertPartD N M) =
      ['N', 'E', '=', 'X', ';', Char.ofNat 10] ++ insertPartD N M from rfl]
  rw [scanInsert_skip _ hp2 ['N', 'E', '=', 'X', ';', Char.ofNat 10] _
    (by intro c hc; fin_cases hc <;> decide)]

/-- With no rows the synthetic dump has no INSERT statement and no
match. -/
theorem matches_mkDump_zero (M : Nat) :
    SQLFileParser.findInsertMatches (mkDump 0 M) "t".data = [] := by
  unfold SQLFileParser.findInsertMatches
  rw [scanInsert_mkDump]
  unfold insertPartD
  rw [if_pos rfl]
  exact scanInsert_nil _

/-- With at least one row the synthetic dump has exactly one match,
carrying the whole tuple list. -/
theorem matches_mkDump_pos (N M : Nat) (hN : N ≠ 0) :
    SQLFileParser.findInsertMatches (mkDump N M) "t".data = [tuplesText N M] := by
  unfold SQLFileParser.findInsertMatches
  rw [scanInsert_mkDump]
  unfold insertPartD
  rw [if_neg hN]
  have hmt : matchTail (" VALUES ".data ++ tuplesText N M ++ [';']) =
      some (tuplesText N M, []) := by
    rw [show (" VALUES ".data ++ tuplesText N M ++ [';'] : List Char) =
        [' '] ++ ("VALUES".data ++ ([' '] ++ (tuplesText N M ++ [';'])))
      from by rw [show (" VALUES ".data : List Char) =
        [' '] ++ "VALUES".data ++ [' '] from by decide]; simp [List.append_assoc]]
    rw [matchTail_ws_skip [' '] _ (by intro c hc; fin_cases hc; decide)]
    rw [matchTail_here "VALUES".data _ (by decide)]
    rw [dropWhile_ws_append [' '] _ (by intro c hc; fin_cases hc; decide)]
    rw [show (tuplesText N M ++ [';'] : List Char) =
        '(' :: ((rowsTextSep ((List.range N).map (fun i => rowToks i M)) ++ [')'])
          ++ [';']) from by unfold tuplesText; simp]
    rw [dropWhile_head_false _ _ (by decide)]
    rw [show ('(' :: ((rowsTextSep ((List.range N).map (fun i => rowToks i M)) ++ [')'])
          ++ [';']) : List Char) =
        tuplesText N M ++ ';' :: [] from by unfold tuplesText; simp]
    exact splitSemi_append _ _ (tuplesText_no_semi N M)
  have hres := scanInsert_here (insertPat "t".data) (insertPat "t".data)
    (" VALUES ".data ++ tuplesText N M ++ [';']) (tuplesText N M, [])
    (by simp [insertPat]) rfl hmt
  rw [show (insertPat "t".data ++ " VALUES ".data ++ tuplesText N M ++ [';'] : List Char) =
      insertPat "t".data ++ (" VALUES ".data ++ tuplesText N M ++ [';'])
    from by simp [List.append_assoc]]
  rw [hres]
  rfl

namespace SQLFileParser

/-- Outside quotes, one scanner step never reads the previous
character, so the whole run is independent of it. -/
theorem go_prev_irrel (prev prev2 : Option Char) (l : List Char)
    (st : PState) (h : st.inQ = false) :
    go false prev l st = go false prev2 l st := by
  cases l with
  | nil => rfl
  | cons c rest =>
    simp only [go, h, Bool.false_eq_true, if_false]

/-- The scanner accumulates a run of plain characters into the current
token. -/
theorem go_token (tok : List Char)
    (htok : ∀ c ∈ tok, c ≠ sqc ∧ c ≠ dqc ∧ c ≠ ',' ∧ c ≠ ')') :
    ∀ (rest : List Char) (st : PState) (prev : Option Char), st.inQ = false →
      go false prev (tok ++ rest) st =
        go false none rest { st with cur := st.cur ++ tok } := by
  induction tok with
  | nil =>
    intro rest st prev h
    rw [show { st with cur := st.cur ++ [] } = st from by simp]
    exact go_prev_irrel prev none rest st h
  | cons c tok2 ih =>
    intro rest st prev h
    obtain ⟨h1, h2, h3, h4⟩ := htok c (by simp)
    show go false prev (c :: (tok2 ++ rest)) st = _
    rw [go.eq_def]
    simp only [h, Bool.false_eq_true, if_false]
    rw [if_neg (by tauto), if_neg h3, if_neg h4]
    rw [ih (fun d hd => htok d (List.mem_cons_of_mem _ hd)) rest _ (some c) (by simp [h])]
    simp [List.append_assoc]

/-- The scanner closes the current token at a comma outside quotes. -/
theorem go_comma (rest : List Char) (st : PState) (prev : Option Char)
    (h : st.inQ = false) :
    go false prev (',' :: rest) st =
      go false none rest
        { st with row := st.row ++ [clean_value (trimL st.cur)], cur := [] } := by
  rw [go.eq_def]
  simp only [h, Bool.false_eq_true, if_false, if_true]
  rw [if_neg (by decide)]
  exact go_prev_irrel _ _ _ _ (by simp [h])

/-- The scanner closes the token and the row at a close parenthesis
outside quotes and enters skip mode. -/
theorem go_paren (rest : List Char) (st : PState) (prev : Option Char)
    (h : st.inQ = false) :
    go false prev (')' :: rest) st =
      go true (some ')') rest
        { rows := if (if trimL st.cur = [] then st.row
              else st.row ++ [clean_value (trimL st.cur)]) = [] then st.rows
            else st.rows ++ [if trimL st.cur = [] then st.row
              else st.row ++ [clean_value (trimL st.cur)]],
          row := [], cur := [], inQ := false, qc := st.qc } := by
  rw [go.eq_def]
  simp only [h, Bool.false_eq_true, if_false, if_true]
  rw [if_neg (by decide), if_neg (by decide)]

/-- Skip mode walks over the comma between tuples and ends at the next
open parenthesis. -/
theorem go_skipstep (rest : List Char) (st : PState) (prev : Option Char) :
    go true prev (',' :: '(' :: rest) st = go false (some '(') rest st := by
  rw [go.eq_def]
  simp only [if_true]
  rw [if_neg (show ¬(',' : Char) = '(' from by decide)]
  rw [go.eq_def]
  simp only [if_true]

end SQLFileParser

/-- A synthetic value token has no whitespace at its ends. -/
theorem trimL_valTok (i j : Nat) : trimL (valTok i j) = valTok i j := by
  apply trimL_eq_self _ (valTok_ne_nil i j)
  · intro c hc
    unfold valTok at hc
    simp only [List.head?_cons, Option.some.injEq] at hc
    subst hc
    decide
  · intro c hc
    have hm : c ∈ valTok i j :=
      List.mem_of_mem_getLast? (by rw [Option.mem_def]; exact hc)
    rcases valTok_mem i j c hm with h | h | h <;> (subst h; decide)

/-- The normalizer leaves a synthetic value token verbatim as text. -/
theorem clean_value_valTok (i j : Nat) :
    SQLFileParser.clean_value (valTok i j) =
      Value.text (String.mk (valTok i j)) := by
  unfold SQLFileParser.clean_value
  rw [trimL_valTok]
  have h1 : upperL (valTok i j) ≠ "NULL".data := by
    unfold valTok upperL
    intro hcontra
    have h2 := congrArg List.head? hcontra
    simp only [List.map_cons, List.head?_cons, Option.some.injEq] at h2
    exact absurd h2 (by decide)
  have h3 : (startsWithL sqc (valTok i j) && endsWithL sqc (valTok i j)) = false := by
    rw [show startsWithL sqc (valTok i j) = false from by unfold valTok; rfl]
    rfl
  have h4 : (startsWithL dqc (valTok i j) && endsWithL dqc (valTok i j)) = false := by
    rw [show startsWithL dqc (valTok i j) = false from by unfold valTok; rfl]
    rfl
  rw [if_neg h1, if_neg (by simp [h3]), if_neg (by simp [h4])]
  exact ite_self _

/-- Synthetic value-token characters are plain for the tokenizer: no
quote, no comma, no close parenthesis. -/
theorem valTok_plain (i j : Nat) :
    ∀ c ∈ valTok i j, c ≠ sqc ∧ c ≠ dqc ∧ c ≠ ',' ∧ c ≠ ')' := by
  intro c hc
  rcases valTok_mem i j c hc with h | h | h <;>
    (subst h; exact ⟨by decide, by decide, by decide, by decide⟩)

/-- Scanning one synthetic row followed by a close parenthesis: the row
of text values is appended and the scanner enters skip mode. -/
theorem go_row (i : Nat) :
    ∀ (js : List Nat), js ≠ [] →
      ∀ (rest : List Char) (rows0 : List (List Value)) (row0 : List Value)
        (qc0 : Option Char) (prev : Option Char),
      SQLFileParser.go false prev (joinCommaSep (js.map (valTok i)) ++ ')' :: rest)
          ⟨rows0, row0, [], false, qc0⟩ =
        SQLFileParser.go true (some ')') rest
          ⟨rows0 ++ [row0 ++ js.map (fun j => Value.text (String.mk (valTok i j)))],
            [], [], false, qc0⟩ := by
  intro js
  induction js with
  | nil => intro h; exact absurd rfl h
  | cons j js2 ih =>
    intro _ rest rows0 row0 qc0 prev
    cases js2 with
    | nil =>
      show SQLFileParser.go false prev (valTok i j ++ ')' :: rest) _ = _
      rw [SQLFileParser.go_token _ (valTok_plain i j) _ _ _ rfl]
      rw [SQLFileParser.go_paren _ _ _ rfl]
      simp only [List.nil_append]
      rw [trimL_valTok]
      rw [if_neg (valTok_ne_nil i j)]
      rw [clean_value_valTok]
      rw [if_neg (by simp)]
      simp
    | cons j2 js3 =>
      show SQLFileParser.go false prev
        ((valTok i j ++ ',' :: joinCommaSep ((valTok i j2) :: js3.map (valTok i)))
          ++ ')' :: rest) _ = _
      rw [List.append_assoc, List.cons_append]
      rw [SQLFileParser.go_token _ (valTok_plain i j) _ _ _ rfl]
      rw [SQLFileParser.go_comma _ _ _ rfl]
      simp only [List.nil_append]
      rw [show trimL (valTok i j) = valTok i j from trimL_valTok i j]
      rw [clean_value_valTok]
      have hres := ih (by simp) rest rows0
        (row0 ++ [Value.text (String.mk (valTok i j))]) qc0 none
      simp only [List.map_cons] at hres ⊢
      rw [hres]
      simp

/-- Scanning the last synthetic row, which the outer stripping left
without a close parenthesis: the trailing token and row are flushed at
the end of the input. -/
theorem go_row_last (i : Nat) :
    ∀ (js : List Nat), js ≠ [] →
      ∀ (rows0 : List (List Value)) (row0 : List Value)
        (qc0 : Option Char) (prev : Option Char),
      SQLFileParser.go false prev (joinCommaSep (js.map (valTok i)))
          ⟨rows0, row0, [], false, qc0⟩ =
        rows0 ++ [row0 ++ js.map (fun j => Value.text (String.mk (valTok i j)))] := by
  intro js
  induction js with
  | nil => intro h; exact absurd rfl h
  | cons j js2 ih =>
    intro _ rows0 row0 qc0 prev
    cases js2 with
    | nil =>
      show SQLFileParser.go false prev (valTok i j) _ = _
      rw [show (valTok i j : List Char) = valTok i j ++ [] from by simp]
      rw [SQLFileParser.go_token _ (valTok_plain i j) _ _ _ rfl]
      rw [SQLFileParser.go.eq_def]
      simp only [List.nil_append]
      rw [trimL_valTok]
      rw [if_neg (valTok_ne_nil i j)]
      rw [clean_value_valTok]
      rw [if_neg (by simp)]
      simp
    | cons j2 js3 =>
      show SQLFileParser.go false prev
        (valTok i j ++ ',' :: joinCommaSep ((valTok i j2) :: js3.map (valTok i))) _ = _
      rw [SQLFileParser.go_token _ (valTok_plain i j) _ _ _ rfl]
      rw [SQLFileParser.go_comma _ _ _ rfl]
      simp only [List.nil_append]
      rw [show trimL (valTok i j) = valTok i j from trimL_valTok i j]
      rw [clean_value_valTok]
      have hres := ih (by simp) rows0
        (row0 ++ [Value.text (String.mk (valTok i j))]) qc0 none
      simp only [List.map_cons] at hres ⊢
      rw [hres]
      simp

/-- Scanning the stripped tuple list of all synthetic rows. -/
theorem go_rows (M : Nat) (hM : 1 ≤ M) :
    ∀ (iL : List Nat), iL ≠ [] →
      ∀ (rows0 : List (List Value)) (qc0 : Option Char) (prev : Option Char),
      SQLFileParser.go false prev
          (rowsTextSep (iL.map (fun i => rowToks i M)))
          ⟨rows0, [], [], false, qc0⟩ =
        rows0 ++ iL.map (fun i =>
          (List.range M).map (fun j => Value.text (String.mk (valTok i j)))) := by
  have hrange : List.range M ≠ [] := by
    intro h0
    have := congrArg List.length h0
    simp at this
    omega
  intro iL
  induction iL with
  | nil => intro h; exact absurd rfl h
  | cons i iL2 ih =>
    intro _ rows0 qc0 prev
    cases iL2 with
    | nil =>
      show SQLFileParser.go false prev (joinCommaSep ((rowToks i M))) _ = _
      unfold rowToks
      rw [go_row_last i (List.range M) hrange rows0 [] qc0 prev]
      simp
    | cons i2 iL3 =>
      show SQLFileParser.go false prev
        (joinCommaSep (rowToks i M) ++ ')' :: (',' :: '(' ::
          rowsTextSep ((rowToks i2 M) :: iL3.map (fun a => rowToks a M)))) _ = _
      unfold rowToks
      rw [go_row i (List.range M) hrange _ rows0 [] qc0 prev]
      rw [SQLFileParser.go_skipstep]
      have hres := ih (by simp) (rows0 ++
        [(List.range M).map (fun j => Value.text (String.mk (valTok i j)))]) qc0
        (some '(')
      simp only [List.map_cons, List.nil_append] at hres ⊢
      unfold rowToks at hres
      rw [hres]
      simp

/-- Tokenizing the stripped synthetic tuple list yields all rows as
text values. -/
theorem parse_rowsTextSep (N M : Nat) (hN : N ≠ 0) (hM : 1 ≤ M) :
    SQLFileParser.parse_values_string
        (rowsTextSep ((List.range N).map (fun i => rowToks i M))) =
      (List.range N).map (fun i =>
        (List.range M).map (fun j => Value.text (String.mk (valTok i j)))) := by
  unfold SQLFileParser.parse_values_string
  rw [go_rows M hM (List.range N)
    (by intro h0; have := congrArg List.length h0; simp at this; omega) [] none none]
  simp

/-- The synthetic tuple list needs no trimming. -/
theorem trim_tuplesText (N M : Nat) : trimL (tuplesText N M) = tuplesText N M := by
  unfold tuplesText
  exact trimL_shape '(' _ ')' (by decide) (by decide)

/-- Stripping the outer parentheses of the synthetic tuple list. -/
theorem strip_tuplesText (N M : Nat) :
    SQLFileParser.stripParens (tuplesText N M) =
      rowsTextSep ((List.range N).map (fun i => rowToks i M)) := by
  unfold SQLFileParser.stripParens tuplesText
  rw [if_pos (show startsWithL '('
    ('(' :: (rowsTextSep ((List.range N).map (fun i => rowToks i M)) ++ [')'])) = true
    from rfl)]
  simp only [List.drop_succ_cons, List.drop_zero]
  rw [if_pos (endsWithL_concat _ ')')]
  exact List.dropLast_concat ..

/-- Zipping the synthetic column names with the text values of row i
gives the expected Record. -/
theorem zip_expected (i M : Nat) :
    (((List.range M).map colName).map String.mk).zip
        ((List.range M).map (fun j => Value.text (String.mk (valTok i j)))) =
      expectedRecord i M := by
  rw [List.map_map]
  rw [List.zip_map']
  rfl

/-- C9, round trip: for every row count N and column count M of at
least one (a well-formed table needs a column), extracting table t from
the synthetic dump yields exactly N Records, in tuple order, each
mapping the M column names, in column order, to the text of the known
value of that row and column. -/
theorem claim9 (N M : Nat) (hM : 1 ≤ M) :
    SQLFileParser.extract_table_data (mkDump N M) "t".data =
      (List.range N).map (fun i => expectedRecord i M) := by
  by_cases hN : N = 0
  · subst hN
    unfold SQLFileParser.extract_table_data
    rw [matches_mkDump_zero M]
    simp
  · rw [SQLFileParser.extract_table_data_eq]
    rw [matches_mkDump_pos N M hN]
    rw [columns_mkDump]
    simp only [List.flatMap_cons, List.flatMap_nil, List.append_nil]
    rw [trim_tuplesText, strip_tuplesText]
    rw [parse_rowsTextSep N M hN hM]
    rw [List.filterMap_map]
    have hfun : ((fun row =>
        if row.length = ((List.range M).map colName).length then
          some ((((List.range M).map colName).map String.mk).zip row)
        else none) ∘ (fun i =>
          (List.range M).map (fun j => Value.text (String.mk (valTok i j))))) =
        fun i => some (expectedRecord i M) := by
      funext i
      show (if ((List.range M).map (fun j => Value.text (String.mk (valTok i j)))).length =
          ((List.range M).map colName).length then
        some ((((List.range M).map colName).map String.mk).zip
          ((List.range M).map (fun j => Value.text (String.mk (valTok i j)))))
        else none) = _
      rw [if_pos (by simp)]
      rw [zip_expected]
    rw [hfun]
    rw [show (fun i => some (expectedRecord i M)) =
        some ∘ (fun i => expectedRecord i M) from rfl]
    rw [List.filterMap_eq_map]

/-- Witness for claim9 at two rows and one column. -/
theorem claim9_witness :
    1 ≤ 1 ∧
    SQLFileParser.extract_table_data (mkDump 2 1) "t".data =
      (List.range 2).map (fun i => expectedRecord i 1) :=
  ⟨by decide, claim9 2 1 (by decide)⟩
